import Mathlib

/-!
Verification of the information-gain diagnostic interview harness.

This file is a shallow embedding of the algorithmic parts of the repository:
the `label|probability` parsing and renormalisation pipeline of
`src/agents/diagnoser_agent.py`, the scenario parser of
`src/agents/probability_agent.py`, the entropy scorer of
`src/utils/entropy.py`, the per-question evaluation of
`src/utils/information_gain.py`, and the interview/narrowing loop of
`src/runners/diagnostic_engine.py`.  Probabilities are embedded as rationals
(`ℚ`), so "sums to exactly 1.0" claims become exact rational statements; the
external completion oracle is embedded as explicit text inputs.  Python string
operations (`split`, `strip`, `float(...)`) are embedded as structural
functions over `List Char` so that every definition evaluates inside the
kernel.
-/

set_option allowUnsafeReducibility true
attribute [semireducible] Rat.add Rat.mul Rat.inv Rat.sub Rat.ofScientific

namespace DiagBench

/-- Python `str.split(sep)` worker over character lists; `fuel` only bounds the
recursion and is always supplied as the length of the input, which suffices
because every step consumes at least one character. -/
def splitFuel (sep : List Char) : ℕ → List Char → List Char → List (List Char)
  | 0, l, acc => [acc.reverse ++ l]
  | _ + 1, [], acc => [acc.reverse]
  | fuel + 1, c :: rest, acc =>
    if sep.isPrefixOf (c :: rest) then
      acc.reverse :: splitFuel sep fuel (rest.drop (sep.length - 1)) []
    else splitFuel sep fuel rest (c :: acc)

/-- Python `str.split(sep)` for a non-empty separator: non-overlapping
occurrences scanned left to right; always returns at least one part, and
`"".split(sep) == [""]`. -/
def pySplit (sep : List Char) (l : List Char) : List (List Char) :=
  splitFuel sep l.length l []

/-- The whitespace characters Python `str.strip()` removes. -/
def isPyWhitespace (c : Char) : Bool :=
  c == ' ' || c == '\t' || c == '\n' || c == '\r' || c == '\x0b' || c == '\x0c'

/-- Python `str.strip()`: drop leading and trailing whitespace. -/
def pyStrip (l : List Char) : List Char :=
  ((l.dropWhile isPyWhitespace).reverse.dropWhile isPyWhitespace).reverse

/-- One belief state: an insertion-ordered association list from diagnosis
label (as its character list) to probability, mirroring a Python `dict` of
`str -> float` with `ℚ` probabilities. -/
abbrev Belief := List (List Char × ℚ)

/-- Sum of the probabilities of a belief state. -/
def beliefSum (l : Belief) : ℚ := (l.map (·.2)).sum

/-- Python `dict` assignment `d[k] = v`: overwrites the value in place if the
key is present (keeping its position), otherwise appends at the end. -/
def dictInsert (l : Belief) (k : List Char) (v : ℚ) : Belief :=
  if l.any (fun p => p.1 == k) then
    l.map (fun p => if p.1 == k then (p.1, v) else p)
  else l ++ [(k, v)]

/-- Numeric value of a digit string, as a rational. -/
def digitsVal (cs : List Char) : ℚ := cs.foldl (fun a c => 10 * a + (c.toNat - 48 : ℕ)) 0

/-- A non-empty all-digit string. -/
def isDigitStr (cs : List Char) : Bool := !cs.isEmpty && cs.all (·.isDigit)

/-- Split a character list at the first character satisfying `sep`; the second
component is `none` when no separator occurs. -/
def splitFirst (sep : Char → Bool) : List Char → List Char × Option (List Char)
  | [] => ([], none)
  | c :: cs =>
    if sep c then ([], some cs)
    else
      let r := splitFirst sep cs
      (c :: r.1, r.2)

/-- `10 ^ n` as a rational. -/
def pow10 : ℕ → ℚ
  | 0 => 1
  | n + 1 => 10 * pow10 n

/-- Scale a value by `10 ^ e` for a signed exponent. -/
def applyExp (v : ℚ) : ℤ → ℚ
  | .ofNat n => v * pow10 n
  | .negSucc n => v / pow10 (n + 1)

/-- Parse an optionally signed decimal integer (the exponent of a float). -/
def parseSignedInt (cs : List Char) : Option ℤ :=
  match cs with
  | '+' :: t => if isDigitStr t then some (digitsVal t).num else none
  | '-' :: t => if isDigitStr t then some (-(digitsVal t).num) else none
  | t => if isDigitStr t then some (digitsVal t).num else none

/-- Model of Python `float(s)` on an already-stripped string, covering the
ordinary decimal literals `[+-]digits[.digits][(e|E)[+-]digits]` (including the
`.5` and `5.` forms).  The exotic spellings Python also accepts (`inf`, `nan`,
underscore separators, hex floats) are not modelled; every probability string
the repository's prompts and the claims are about is an ordinary decimal.
Returns `none` where Python raises `ValueError`. -/
def parseFloat (cs : List Char) : Option ℚ :=
  let sc : ℚ × List Char :=
    match cs with
    | '+' :: t => (1, t)
    | '-' :: t => (-1, t)
    | t => (1, t)
  let me := splitFirst (fun c => c == 'e' || c == 'E') sc.2
  let expVal : Option ℤ :=
    match me.2 with
    | none => some 0
    | some ecs => parseSignedInt ecs
  match expVal with
  | none => none
  | some e =>
    let ifp := splitFirst (fun c => c == '.') me.1
    let ip := ifp.1
    let fp := ifp.2.getD []
    if ip.all (·.isDigit) && fp.all (·.isDigit) && (!ip.isEmpty || !fp.isEmpty) then
      some (applyExp (sc.1 * ((digitsVal ip * pow10 fp.length + digitsVal fp) / pow10 fp.length)) e)
    else none

/-- The lines the diagnoser parser keeps (`diagnoser_agent.py` line 146):
stripped, non-empty, containing a pipe. -/
def candidateLines (content : List Char) : List (List Char) :=
  ((pySplit ['\n'] content).map pyStrip).filter (fun l => !l.isEmpty && l.contains '|')

/-- `label|probability` extraction (`diagnoser_agent.py` lines 144-159): each
kept line is split on its FIRST pipe, both parts stripped, the probability
parsed as a float; the pair is stored when the label is non-empty and the
probability lies in `[0,1]`, a duplicate label overwriting the stored value in
place as Python dict assignment does.  Ill-formed lines are skipped. -/
def extractStep (acc : Belief) (line : List Char) : Belief :=
  let disease := pyStrip (line.takeWhile (fun c => c != '|'))
  let probStr := pyStrip ((line.dropWhile (fun c => c != '|')).drop 1)
  match parseFloat probStr with
  | some p => if disease ≠ [] ∧ 0 ≤ p ∧ p ≤ 1 then dictInsert acc disease p else acc
  | none => acc

/-- See `extractStep`; the whole extraction loop. -/
def extractLines (content : List Char) : Belief :=
  (candidateLines content).foldl extractStep []

/-- Divide every probability by `t`. -/
def divideAll (l : Belief) (t : ℚ) : Belief := l.map (fun p => (p.1, p.2 / t))

/-- Add `r` to the last entry's probability
(`probabilities[last_disease] += (1.0 - current_sum)`). -/
def bumpLast (r : ℚ) : Belief → Belief
  | [] => []
  | [p] => [(p.1, p.2 + r)]
  | p :: q :: t => p :: bumpLast r (q :: t)

/-- The renormalisation step of `diagnoser_agent.py` (lines 170-179, repeated
at lines 189-197 and 204-211): when the total is positive, divide every
probability by it and then add the residual `1 - sum` to the last-inserted
label; otherwise leave the mapping untouched. -/
def normalizeLast (l : Belief) : Belief :=
  let total := beliefSum l
  if 0 < total then
    let l' := divideAll l total
    bumpLast (1 - beliefSum l') l'
  else l

/-- `POTENTIAL_SKIN_DIAGNOSES` from `src/models/case.py`. -/
def POTENTIAL_SKIN_DIAGNOSES : List (List Char) :=
  ["Warts".data, "Psoriasis".data, "Eczema (Atopic Dermatitis)".data,
   "Contact Dermatitis".data, "Seborrheic Keratosis".data, "Actinic Keratosis".data,
   "Lichen Planus".data, "Folliculitis".data, "Basal Cell Carcinoma".data,
   "Squamous Cell Carcinoma".data]

/-- Fallback padding (`diagnoser_agent.py` lines 182-187): walk the fixed
fallback list, adding each label not already present at probability `0.0001`,
while fewer than `num` entries are held.  The `existing` check is against the
keys as they were before padding began, as in the source. -/
def padStep (existing : List (List Char)) (num : ℕ) (acc : Belief) (d : List Char) : Belief :=
  if d ∉ existing ∧ acc.length < num then dictInsert acc d (1 / 10000) else acc

/-- See `padStep`; the whole padding loop. -/
def padFallback (num : ℕ) (l : Belief) : Belief :=
  POTENTIAL_SKIN_DIAGNOSES.foldl (padStep (l.map (·.1)) num) l

/-- Stable insertion of `x` into a list sorted by probability descending: `x`
goes after every entry whose probability is at least its own, matching the
stability of Python `sorted(..., key=lambda x: x[1], reverse=True)`. -/
def insertDesc (x : List Char × ℚ) : Belief → Belief
  | [] => [x]
  | y :: ys => if x.2 ≤ y.2 then y :: insertDesc x ys else x :: y :: ys

/-- Stable sort by probability descending. -/
def sortDesc (l : Belief) : Belief := l.foldl (fun acc x => insertDesc x acc) []

/-- Truncation to the `num` highest-probability entries
(`diagnoser_agent.py` lines 199-211): stable-sort descending, keep the first
`num`, renormalise. -/
def truncateTop (num : ℕ) (l : Belief) : Belief :=
  normalizeLast ((sortDesc l).take num)

/-- The deterministic post-processing pipeline of
`DiagnoserAgent.update_probabilities` (`diagnoser_agent.py` lines 144-211)
applied to the oracle content that reaches the parser: extract the
`label|probability` lines, renormalise, pad with fallbacks when short (then
renormalise), truncate to the top `num` when long (then renormalise). -/
def processContent (content : List Char) (num : ℕ) : Belief :=
  let probs := normalizeLast (extractLines content)
  let probs := if probs.length < num then normalizeLast (padFallback num probs) else probs
  if num < probs.length then truncateTop num probs else probs

/-- `base_diseases` bookkeeping (`diagnoser_agent.py` lines 161-168): on the
first update the extracted keys become the base list; afterwards, keys not yet
present are appended in order.  The append (`self.base_diseases.append`)
mutates the list object in place, which matters where that object is shared
(see `evaluate_question_info_gain`). -/
def updateBase (base : Option (List (List Char))) (keys : List (List Char)) :
    Option (List (List Char)) :=
  match base with
  | none => some keys
  | some b => some (keys.foldl (fun acc d => if d ∈ acc then acc else acc ++ [d]) b)

/-- The mutable attributes of a `DiagnoserAgent` instance. -/
structure DiagnoserState where
  patient_info : List Char
  previous_probabilities : Belief
  base_diseases : Option (List (List Char))
deriving DecidableEq

/-- Reasoning extraction (`diagnoser_agent.py` lines 136-142): with
`get_reasoning`, the response is split on the double newline; when more than
one part results, the first part becomes the reasoning and the last part
becomes the content handed to the probability parser. -/
def splitReasoning (getReasoning : Bool) (content : List Char) :
    Option (List Char) × List Char :=
  if getReasoning then
    let parts := pySplit ['\n', '\n'] content
    if 1 < parts.length then (some parts.head!, parts.getLast!) else (none, content)
  else (none, content)

/-- `DiagnoserAgent.update_probabilities` (`diagnoser_agent.py` lines 11-219).
The oracle's response text is an explicit input (the embedding models what the
method does with the completion text, not the completion call).  Returns the
updated agent state, the belief handed back to the caller, and `some reasoning`
exactly when the Python method returns the pair `(probabilities, reasoning)` —
which it does only when reasoning was requested and the extracted reasoning is
a non-empty string (`if get_reasoning and reasoning`). -/
def update_probabilities (st : DiagnoserState) (additional : List Char)
    (oracle : List Char) (getReasoning : Bool) (num : ℕ) :
    DiagnoserState × Belief × Option (List Char) :=
  let rc := splitReasoning getReasoning oracle
  let extracted := extractLines rc.2
  let base := updateBase st.base_diseases (extracted.map (·.1))
  let probs := processContent rc.2 num
  let ret := match rc.1 with
    | some r => if r ≠ [] then some r else none
    | none => none
  ({ patient_info := st.patient_info ++ additional ++ [' '],
     previous_probabilities := probs,
     base_diseases := base }, probs, ret)

/-- The fixed sentinel content that `call_completion_api` substitutes for the
response when the completion call fails (`src/utils/api.py` line 36). -/
def apiErrorSentinel : List Char := "Error occurred during API call".data

/-- The restriction-and-renormalise step the interview loop applies after every
real answer and after every narrowing (`diagnostic_engine.py` lines 227-232 and
311-316): rebuild the mapping over exactly the focused diseases, defaulting a
missing disease to probability 0, then divide by the total when it is
positive.  No residual correction is applied at this call site. -/
def lookupProb (probs : Belief) (d : List Char) : ℚ :=
  ((probs.find? (fun p => p.1 == d)).map (·.2)).getD 0

/-- See `lookupProb`; this is `focused_probs = {d: current_probs.get(d, 0.0)}`
followed by `if total > 0: focused_probs = {d: p/total}`. -/
def focusFilter (focused : List (List Char)) (probs : Belief) : Belief :=
  let fp := focused.map (fun d => (d, lookupProb probs d))
  let total := beliefSum fp
  if 0 < total then divideAll fp total else fp
/-- Probability-descending sortedness (the order produced by `sortDesc`). -/
def DescSorted (l : Belief) : Prop := l.Pairwise (fun a b => b.2 ≤ a.2)

/-- `calculate_entropy` (`src/utils/entropy.py` lines 5-10): Shannon entropy
`-Σ p·log2(p)` over the entries with `p > 0`.  The `lru_cache` memoisation of
the source does not change the value and is not modelled. -/
noncomputable def calculate_entropy (l : Belief) : ℝ :=
  -((l.filter (fun p => decide (0 < p.2))).map
      (fun p => (p.2 : ℝ) * Real.logb 2 (p.2 : ℝ))).sum

/-- `has_confident_diagnosis` (`src/utils/entropy.py` lines 12-14). -/
def has_confident_diagnosis (probs : Belief) (threshold : ℚ) : Bool :=
  probs.any (fun p => decide (threshold ≤ p.2))

/-- Decidable equality for `Except`, used to evaluate the scenario parser on
concrete inputs. -/
instance {ε α : Type} [DecidableEq ε] [DecidableEq α] : DecidableEq (Except ε α) := fun a b =>
  match a, b with
  | .ok x, .ok y =>
    if h : x = y then .isTrue (congrArg Except.ok h)
    else .isFalse (fun hc => h (Except.ok.inj hc))
  | .error e, .error f =>
    if h : e = f then .isTrue (congrArg Except.error h)
    else .isFalse (fun hc => h (Except.error.inj hc))
  | .ok _, .error _ => .isFalse (fun hc => Except.noConfusion hc)
  | .error _, .ok _ => .isFalse (fun hc => Except.noConfusion hc)

/-- One line of `ProbabilityAgent.calculate_scenario_probabilities`
(`src/agents/probability_agent.py` lines 117-123), faithful to the source:
a line without a pipe is skipped silently; `scenario, prob = line.split('|')`
splits on EVERY pipe and the tuple unpacking raises `ValueError` (modelled as
`Except.error`) when the line does not contain exactly one pipe; a duplicate
scenario (exact text match after stripping) is skipped before its probability
text is even parsed; otherwise `float(prob.strip())` raises `ValueError` when
the probability text does not parse as a float.  No `[0,1]` range check is
performed at this call site. -/
def scenarioStep (acc : Belief) (line : List Char) : Except (List Char) Belief :=
  if line.contains '|' then
    let parts := pySplit ['|'] line
    if parts.length ≠ 2 then .error "ValueError: too many values to unpack".data
    else
      let scenario := pyStrip parts.head!
      if acc.any (fun p => p.1 == scenario) then .ok acc
      else
        match parseFloat (pyStrip parts.getLast!) with
        | some p => .ok (acc ++ [(scenario, p)])
        | none => .error "ValueError: could not convert string to float".data
  else .ok acc

/-- `ProbabilityAgent.calculate_scenario_probabilities` applied to the
oracle's response text; `Except.error` models an uncaught Python
`ValueError` escaping the method. -/
def calculate_scenario_probabilities (content : List Char) : Except (List Char) Belief :=
  (pySplit ['\n'] content).foldlM scenarioStep []

/-- `evaluate_question_info_gain` (`src/utils/information_gain.py` lines
5-47), state-effect part.  For each sampled scenario the source builds a fresh
`temp_diagnoser`, copying the caller's `patient_info` (an immutable string)
and setting `previous_probabilities = current_probs` (later REBOUND to a newly
built dict, never mutated in place), but `temp_diagnoser.base_diseases =
diagnoser.base_diseases` aliases the caller's LIST OBJECT, and
`update_probabilities` appends to that very object.  The embedding therefore
threads the caller-visible `base_diseases` through the scenario loop while the
caller's other attributes and the shared `current_probs` mapping stay fixed.
Returns the caller's diagnoser state as observed after the evaluation,
together with the hypothetical posterior of each scenario (the entropy
averaging over these posteriors is `expected_posterior_entropy` below). -/
def evaluate_question_info_gain (scenarios : List (List Char × ℚ))
    (oracleFor : List Char → List Char) (question : List Char)
    (diag : DiagnoserState) (current_probs : Belief) (max_diseases : ℕ) :
    DiagnoserState × List Belief :=
  scenarios.foldl (fun acc sc =>
    let caller := acc.1
    let temp : DiagnoserState :=
      { patient_info := diag.patient_info,
        previous_probabilities := current_probs,
        base_diseases := caller.base_diseases }
    let r := update_probabilities temp
      ("Question: ".data ++ question ++ ", Answer: ".data ++ sc.1)
      (oracleFor sc.1) false max_diseases
    ({ caller with base_diseases := r.1.base_diseases }, acc.2 ++ [r.2.1]))
    (diag, [])

/-- The entropy bookkeeping of `evaluate_question_info_gain` (lines 15-45):
expected posterior entropy over the sampled scenarios, each hypothetical
posterior restricted to the focused diseases when narrowing has been
performed (`if performed_narrowing and focused_diseases:`). -/
noncomputable def expected_posterior_entropy (scenarios : List (List Char × ℚ))
    (posteriors : List Belief) (performedNarrowing : Bool)
    (focused : List (List Char)) : ℝ :=
  ((scenarios.zip posteriors).map (fun sp =>
    (sp.1.2 : ℝ) * calculate_entropy
      (if performedNarrowing ∧ focused ≠ [] then focusFilter focused sp.2 else sp.2))).sum

/-- Information gain of one candidate question (line 45):
`current_entropy - expected_entropy`; may be negative, not clamped. -/
noncomputable def question_info_gain (current_entropy : ℝ)
    (scenarios : List (List Char × ℚ)) (posteriors : List Belief)
    (performedNarrowing : Bool) (focused : List (List Char)) : ℝ :=
  current_entropy - expected_posterior_entropy scenarios posteriors performedNarrowing focused

/-- The per-turn candidate-evaluation dispatch of the interview loop
(`src/runners/diagnostic_engine.py` lines 250-284).  With at most 2 available
questions the source evaluates sequentially with NO try/except, so an
exception raised while scoring one candidate propagates out of the loop
(modelled as `Except.error`); with more than 2 it submits to a worker pool
and collects each future inside `try/except Exception: continue`, so a
failing candidate is silently excluded.  Completion order is abstracted as
submission order. -/
def collect_question_info_gains (evalQ : List Char → Except Unit (List Char × ℚ))
    (qs : List (List Char)) : Except Unit (List (List Char × ℚ)) :=
  if qs.length ≤ 2 then qs.mapM evalQ
  else .ok (qs.filterMap (fun q => (evalQ q).toOption))

/-- Configuration slice of `run_information_gain_network` that the embedded
loop depends on. -/
structure EngineConfig where
  confidence_threshold : ℚ
  max_questions : ℕ
  turns_before_narrowing : ℕ

/-- One record of `results["narrowing_events"]`
(`diagnostic_engine.py` lines 121-126). -/
structure NarrowEvent where
  turn : ℕ
  diseases_before : ℕ
  diseases_after : ℕ
  focused : List (List Char)
deriving DecidableEq

/-- The loop state of `run_information_gain_network`
(`diagnostic_engine.py` lines 83-91 together with the `results` flags the loop
writes). -/
structure EngineState where
  current_probs : Belief
  questions_asked : ℕ
  performed_first_narrowing : Bool
  narrow_count : ℕ
  focused_diseases : List (List Char)
  narrowing_events : List NarrowEvent
  confident_diagnosis : Bool
deriving DecidableEq

/-- The oracle-backed collaborators of one interview, indexed by the value of
`questions_asked` at the head of a loop iteration: `update t` is the belief
dict returned by `diagnoser.update_probabilities` after the answer to question
`t+1`; `gains t` is the outcome of the candidate-evaluation dispatch
(`Except.error` models a scoring exception escaping the sequential path, the
collected `question_info_gains` list otherwise); `hasQuestions t` is whether
`available_questions` is non-empty.  The concrete question texts, the asked-
question bookkeeping and the focused-question regeneration only affect which
texts are sent to the oracle, and are absorbed into these three maps. -/
structure EngineEnv where
  update : ℕ → Belief
  gains : ℕ → Except Unit (List (List Char × ℚ))
  hasQuestions : ℕ → Bool

/-- Python `max(items, key=lambda x: x[1])`: the first maximal entry wins. -/
def maxBySnd (l : Belief) : List Char × ℚ :=
  l.foldl (fun acc p => if acc.2 < p.2 then p else acc) (l.headD ([], 0))

/-- The narrowing decision for the FIRST narrowing
(`diagnostic_engine.py` line 97): not yet performed and
`questions_asked >= turns_before_narrowing`. -/
def firstNarrowB (cfg : EngineConfig) (st : EngineState) : Bool :=
  !st.performed_first_narrowing && decide (cfg.turns_before_narrowing ≤ st.questions_asked)

/-- The narrowing decision for SUBSEQUENT narrowings
(`diagnostic_engine.py` line 101, the `elif`): already performed once,
`(questions_asked - turns_before_narrowing) % 2 == 0`, and more than one
disease remains. -/
def laterNarrowB (cfg : EngineConfig) (st : EngineState) : Bool :=
  st.performed_first_narrowing &&
    decide ((st.questions_asked - cfg.turns_before_narrowing) % 2 = 0) &&
    decide (1 < st.current_probs.length)

/-- The focused diseases a narrowing step retains
(`diagnostic_engine.py` lines 110-116): the keys of the top
`max(1, n // 2)` entries of the probability-descending stable sort. -/
def topHalfKeys (P : Belief) : List (List Char) :=
  ((sortDesc P).take (max 1 (P.length / 2))).map (·.1)

/-- See `topHalfKeys`, applied to the loop state's current belief. -/
def narrowFocused (st : EngineState) : List (List Char) :=
  topHalfKeys st.current_probs

/-- The `if should_narrow:` body (`diagnostic_engine.py` lines 105-232):
sort by probability descending, keep the top `max(1, n // 2)` as the focused
set, record the narrowing event, and when a single disease remains set the
confident flag and break out of the loop (which SKIPS the restriction of
`current_probs`, line 136 preceding lines 225-232); otherwise restrict and
renormalise `current_probs` to the focused diseases.  The second component is
whether the `break` fired.  The oracle-backed regeneration of the question
pool (lines 138-223) only affects which question texts are asked and is
absorbed by `EngineEnv`. -/
def narrowAction (st : EngineState) : EngineState × Bool :=
  let numToKeep := max 1 (st.current_probs.length / 2)
  let focused := narrowFocused st
  let st' : EngineState := { st with
    narrow_count := st.narrow_count + 1,
    focused_diseases := focused,
    narrowing_events := st.narrowing_events ++
      [⟨st.questions_asked, st.current_probs.length, numToKeep, focused⟩] }
  if numToKeep = 1 then
    let st'' := { st' with confident_diagnosis := true }
    if focused.length = 1 then (st'', true)
    else ({ st'' with current_probs := focusFilter focused st''.current_probs }, false)
  else ({ st' with current_probs := focusFilter focused st'.current_probs }, false)

/-- One iteration of the `while` loop of `run_information_gain_network`
(`diagnostic_engine.py` lines 92-335): `.inl r` means the loop finishes with
outcome `r` (loop condition false, narrowing break, question pool empty, no
collected gains, or a scoring exception escaping); `.inr st'` means the
iteration asked a question and the loop continues from `st'`. -/
def engineStep (cfg : EngineConfig) (env : EngineEnv) (st : EngineState) :
    Except Unit EngineState ⊕ EngineState :=
  if 1 < st.current_probs.length ∧ st.questions_asked < cfg.max_questions then
    let st₁ := if firstNarrowB cfg st then
      { st with performed_first_narrowing := true } else st
    let nb := if firstNarrowB cfg st || laterNarrowB cfg st then
      narrowAction st₁ else (st₁, false)
    if nb.2 then .inl (.ok nb.1)
    else if env.hasQuestions nb.1.questions_asked = false then .inl (.ok nb.1)
    else
      match env.gains nb.1.questions_asked with
      | .error e => .inl (.error e)
      | .ok gainsList =>
        if gainsList.isEmpty then .inl (.ok nb.1)
        else
          .inr { nb.1 with
                 questions_asked := nb.1.questions_asked + 1,
                 current_probs :=
                   focusFilter nb.1.focused_diseases (env.update nb.1.questions_asked) }
  else .inl (.ok st)

/-- The `while` loop (see `engineStep`); `fuel` only bounds the recursion and
the runner supplies `max_questions + 1`, which suffices because every
iteration that continues increments `questions_asked` and the loop condition
requires `questions_asked < max_questions`. -/
def engineLoop (cfg : EngineConfig) (env : EngineEnv) :
    ℕ → EngineState → Except Unit EngineState
  | 0, st => .ok st
  | fuel + 1, st =>
    match engineStep cfg env st with
    | .inl r => r
    | .inr st' => engineLoop cfg env fuel st'

/-- `run_information_gain_network` (`diagnostic_engine.py` lines 12-364): the
initial loop state built from the turn-0 belief (`focused_diseases` starts as
all its keys, line 89), the loop, then the final confident-diagnosis
determination of lines 339-344 (`len == 1 or top_prob >= threshold`). -/
def run_information_gain_network (cfg : EngineConfig) (env : EngineEnv)
    (initialProbs : Belief) : Except Unit EngineState :=
  let st0 : EngineState := {
    current_probs := initialProbs,
    questions_asked := 0,
    performed_first_narrowing := false,
    narrow_count := 0,
    focused_diseases := initialProbs.map (·.1),
    narrowing_events := [],
    confident_diagnosis := false }
  match engineLoop cfg env (cfg.max_questions + 1) st0 with
  | .error e => .error e
  | .ok st =>
    .ok { st with confident_diagnosis :=
      (st.confident_diagnosis || decide (st.current_probs.length = 1) ||
        decide (cfg.confidence_threshold ≤ (maxBySnd st.current_probs).2)) }

/-- The configuration of claim C1: `maxTurns=3`, `turnsBeforeNarrowing=1`,
with the repository's default confidence threshold 0.75. -/
def cfgC1 : EngineConfig :=
  { confidence_threshold := 3 / 4, max_questions := 3, turns_before_narrowing := 1 }

/-- A concrete four-diagnosis initial belief for concrete runs. -/
def bs4 : Belief :=
  [("A".data, 2/5), ("B".data, 3/10), ("C".data, 1/5), ("D".data, 1/10)]

/-- A concrete benign environment: the diagnoser always returns `bs4` again,
one candidate question always evaluates (gain 0), questions never run out. -/
def envBenign : EngineEnv :=
  { update := fun _ => bs4,
    gains := fun _ => .ok [("q".data, 0)],
    hasQuestions := fun _ => true }

/-- An environment whose candidate scoring raises at every turn, as the
sequential evaluation path (lines 253-260) lets happen with at most two
available questions. -/
def envFailingEval : EngineEnv :=
  { update := fun _ => bs4,
    gains := fun _ => .error (),
    hasQuestions := fun _ => true }

/-- Modelled from the spec: the per-narrowing ground-truth bookkeeping of the
NarrowingController (spec §4.5, "Ground-truth tracking") is not implemented by
any code under `src/` — `src/runners/benchmark.py` lines 54-57 only initialise
`ground_truth_narrowed_out` and `ground_truth_last_rank` in the results
record, `src/runners/diagnostic_engine.py` records narrowing events without
any ground-truth check, and `src/benchmark_main.py` only reads the two fields
back — so the update rule is modelled here from the spec's words.  The state
is the pair of recorded fields. -/
structure GroundTruthTrack where
  narrowed_out : Bool
  ground_truth_last_rank : Option ℕ
deriving DecidableEq

/-- Modelled from the spec: one narrowing step of the ground-truth tracker.
`rankBefore` is the ground-truth label's rank immediately prior to this
narrowing and `survives` whether the label is in the retained set.  If the
label was already narrowed out nothing is ever updated again; if it survives
nothing is recorded; if it is evicted for the first time, its last-known rank
is frozen and `narrowed_out` is set. -/
def gtNarrowStep (st : GroundTruthTrack) (rankBefore : ℕ) (survives : Bool) :
    GroundTruthTrack :=
  if st.narrowed_out then st
  else if survives then st
  else { narrowed_out := true, ground_truth_last_rank := some rankBefore }

/-- Modelled from the spec: the tracker states over a run, starting from the
given state (the initial record has `narrowed_out = false` and no rank), with
one entry per narrowing plus the initial state. -/
def gtTrace (st : GroundTruthTrack) : List (ℕ × Bool) → List GroundTruthTrack
  | [] => [st]
  | s :: rest => st :: gtTrace (gtNarrowStep st s.1 s.2) rest
lemma beliefSum_append (l₁ l₂ : Belief) : beliefSum (l₁ ++ l₂) = beliefSum l₁ + beliefSum l₂ := by
  simp [beliefSum]

lemma beliefSum_divideAll (l : Belief) (t : ℚ) :
    beliefSum (divideAll l t) = beliefSum l / t := by
  induction l with
  | nil => simp [beliefSum, divideAll]
  | cons p l ih =>
    simp only [divideAll, List.map_cons, beliefSum, List.map, List.sum_cons] at ih ⊢
    rw [ih]
    ring

lemma bumpLast_length (r : ℚ) (l : Belief) : (bumpLast r l).length = l.length := by
  induction l with
  | nil => rfl
  | cons p l ih =>
    cases l with
    | nil => rfl
    | cons q t => simpa [bumpLast] using ih

lemma beliefSum_bumpLast (r : ℚ) (l : Belief) (h : l ≠ []) :
    beliefSum (bumpLast r l) = beliefSum l + r := by
  induction l with
  | nil => exact absurd rfl h
  | cons p l ih =>
    cases l with
    | nil => simp [bumpLast, beliefSum]
    | cons q t =>
      have := ih (by simp)
      simp only [bumpLast, beliefSum, List.map_cons, List.sum_cons] at this ⊢
      rw [this]
      ring

lemma bumpLast_zero (l : Belief) : bumpLast 0 l = l := by
  induction l with
  | nil => rfl
  | cons p l ih =>
    cases l with
    | nil => simp [bumpLast]
    | cons q t => simpa [bumpLast] using ih

lemma divideAll_length (l : Belief) (t : ℚ) : (divideAll l t).length = l.length := by
  simp [divideAll]

lemma self_div_self_eq_one {x : ℚ} (h : 0 < x) : x / x = 1 := div_self (ne_of_gt h)

/-- When the total is positive, the rational-arithmetic residual is exactly 0,
so the renormalisation is plain division by the total. -/
lemma normalizeLast_eq_divideAll (l : Belief) (h : 0 < beliefSum l) :
    normalizeLast l = divideAll l (beliefSum l) := by
  unfold normalizeLast
  dsimp only
  rw [if_pos h]
  simp only [beliefSum_divideAll, self_div_self_eq_one h, sub_self, bumpLast_zero]

lemma normalizeLast_sum (l : Belief) (h : 0 < beliefSum l) :
    beliefSum (normalizeLast l) = 1 := by
  rw [normalizeLast_eq_divideAll l h, beliefSum_divideAll, self_div_self_eq_one h]

lemma normalizeLast_of_nonpos (l : Belief) (h : ¬ 0 < beliefSum l) :
    normalizeLast l = l := by
  unfold normalizeLast
  rw [if_neg h]

lemma normalizeLast_length (l : Belief) : (normalizeLast l).length = l.length := by
  by_cases h : 0 < beliefSum l
  · rw [normalizeLast_eq_divideAll l h, divideAll_length]
  · rw [normalizeLast_of_nonpos l h]

lemma normalizeLast_nonneg (l : Belief) (h : ∀ p ∈ l, 0 ≤ p.2) :
    ∀ p ∈ normalizeLast l, 0 ≤ p.2 := by
  by_cases hpos : 0 < beliefSum l
  · rw [normalizeLast_eq_divideAll l hpos]
    intro p hp
    simp only [divideAll, List.mem_map] at hp
    obtain ⟨q, hq, rfl⟩ := hp
    exact div_nonneg (h q hq) (le_of_lt hpos)
  · rw [normalizeLast_of_nonpos l hpos]; exact h

lemma focusFilter_length (focused : List (List Char)) (probs : Belief) :
    (focusFilter focused probs).length = focused.length := by
  unfold focusFilter
  dsimp only
  split
  · simp [divideAll]
  · simp

lemma focusFilter_sum (focused : List (List Char)) (probs : Belief)
    (h : 0 < beliefSum (focused.map (fun d => (d, lookupProb probs d)))) :
    beliefSum (focusFilter focused probs) = 1 := by
  unfold focusFilter
  dsimp only
  rw [if_pos h, beliefSum_divideAll, self_div_self_eq_one h]
lemma dictInsert_of_not_mem (l : Belief) (k : List Char) (v : ℚ)
    (h : k ∉ l.map (·.1)) : dictInsert l k v = l ++ [(k, v)] := by
  unfold dictInsert
  rw [if_neg]
  intro hc
  rw [List.any_eq_true] at hc
  obtain ⟨p, hp, hpk⟩ := hc
  exact h (List.mem_map.mpr ⟨p, hp, by simpa using hpk⟩)

lemma dictInsert_value_inv (P : ℚ → Prop) (acc : Belief) (k : List Char) (v : ℚ)
    (ha : ∀ p ∈ acc, P p.2) (hv : P v) : ∀ p ∈ dictInsert acc k v, P p.2 := by
  intro p hp
  unfold dictInsert at hp
  split at hp
  · rw [List.mem_map] at hp
    obtain ⟨q, hq, heq⟩ := hp
    by_cases hk : (q.1 == k) = true
    · rw [if_pos hk] at heq
      rw [← heq]
      exact hv
    · rw [if_neg hk] at heq
      rw [← heq]
      exact ha q hq
  · rcases List.mem_append.mp hp with h1 | h2
    · exact ha p h1
    · rw [List.mem_singleton] at h2
      rw [h2]
      exact hv

lemma extractStep_value_inv (P : ℚ → Prop) (acc : Belief) (line : List Char)
    (ha : ∀ p ∈ acc, P p.2) (hP : ∀ q : ℚ, 0 ≤ q → q ≤ 1 → P q) :
    ∀ p ∈ extractStep acc line, P p.2 := by
  intro p hp
  unfold extractStep at hp
  dsimp only at hp
  cases hpf : parseFloat (pyStrip ((line.dropWhile (fun c => c != '|')).drop 1)) with
  | none => rw [hpf] at hp; exact ha p hp
  | some q =>
    rw [hpf] at hp
    dsimp only at hp
    split at hp
    · next hcond =>
      exact dictInsert_value_inv P acc _ q ha (hP q hcond.2.1 hcond.2.2) p hp
    · exact ha p hp

lemma extract_fold_inv (P : ℚ → Prop) (hP : ∀ q : ℚ, 0 ≤ q → q ≤ 1 → P q) :
    ∀ (lines : List (List Char)) (acc : Belief), (∀ p ∈ acc, P p.2) →
      ∀ p ∈ lines.foldl extractStep acc, P p.2 := by
  intro lines
  induction lines with
  | nil => intro acc ha p hp; exact ha p hp
  | cons line rest ih =>
    intro acc ha
    exact ih _ (extractStep_value_inv P acc line ha hP)

lemma extractLines_bounds (content : List Char) :
    ∀ p ∈ extractLines content, 0 ≤ p.2 ∧ p.2 ≤ 1 :=
  extract_fold_inv (fun q => 0 ≤ q ∧ q ≤ 1) (fun _ h1 h2 => ⟨h1, h2⟩)
    (candidateLines content) [] (by simp)

lemma insertDesc_perm (x : List Char × ℚ) (l : Belief) :
    (insertDesc x l).Perm (x :: l) := by
  induction l with
  | nil => exact List.Perm.refl _
  | cons y ys ih =>
    unfold insertDesc
    by_cases h : x.2 ≤ y.2
    · rw [if_pos h]
      exact (ih.cons y).trans (List.Perm.swap x y ys)
    · rw [if_neg h]

lemma sortDesc_fold_perm (l : List (List Char × ℚ)) :
    ∀ acc : Belief, (l.foldl (fun acc x => insertDesc x acc) acc).Perm (l ++ acc) := by
  induction l with
  | nil => intro acc; simp
  | cons x t ih =>
    intro acc
    refine (ih (insertDesc x acc)).trans ?_
    refine (List.Perm.append_left t (insertDesc_perm x acc)).trans ?_
    exact @List.perm_middle _ x t acc

lemma sortDesc_perm (l : Belief) : (sortDesc l).Perm l := by
  have h := sortDesc_fold_perm l []
  simp only [List.append_nil] at h
  exact h

lemma sortDesc_length (l : Belief) : (sortDesc l).length = l.length :=
  (sortDesc_perm l).length_eq

lemma insertDesc_sorted (x : List Char × ℚ) (l : Belief) (h : DescSorted l) :
    DescSorted (insertDesc x l) := by
  induction l with
  | nil => simp [insertDesc, DescSorted]
  | cons y ys ih =>
    rw [DescSorted, List.pairwise_cons] at h
    obtain ⟨hy, hys⟩ := h
    unfold insertDesc
    by_cases hx : x.2 ≤ y.2
    · rw [if_pos hx]
      rw [DescSorted, List.pairwise_cons]
      refine ⟨?_, ih hys⟩
      intro z hz
      rcases List.mem_cons.mp ((insertDesc_perm x ys).mem_iff.mp hz) with rfl | hzy
      · exact hx
      · exact hy z hzy
    · rw [if_neg hx]
      have hyx : y.2 ≤ x.2 := le_of_lt (lt_of_not_le hx)
      rw [DescSorted, List.pairwise_cons]
      refine ⟨?_, ?_⟩
      · intro z hz
        rcases List.mem_cons.mp hz with rfl | hzy
        · exact hyx
        · exact (hy z hzy).trans hyx
      · rw [List.pairwise_cons]
        exact ⟨hy, hys⟩

lemma sortDesc_fold_sorted (l : List (List Char × ℚ)) :
    ∀ acc : Belief, DescSorted acc →
      DescSorted (l.foldl (fun acc x => insertDesc x acc) acc) := by
  induction l with
  | nil => intro acc ha; exact ha
  | cons x t ih => intro acc ha; exact ih _ (insertDesc_sorted x acc ha)

lemma sortDesc_sorted (l : Belief) : DescSorted (sortDesc l) :=
  sortDesc_fold_sorted l [] List.Pairwise.nil

lemma beliefSum_nonneg (l : Belief) (h : ∀ p ∈ l, 0 ≤ p.2) : 0 ≤ beliefSum l := by
  induction l with
  | nil => simp [beliefSum]
  | cons p t ih =>
    have ht := ih (fun q hq => h q (List.mem_cons_of_mem p hq))
    have hp := h p (List.mem_cons_self p t)
    simp only [beliefSum, List.map_cons, List.sum_cons]
    simp only [beliefSum] at ht
    linarith

lemma beliefSum_nonpos (l : Belief) (h : ∀ p ∈ l, p.2 ≤ 0) : beliefSum l ≤ 0 := by
  induction l with
  | nil => simp [beliefSum]
  | cons p t ih =>
    have ht := ih (fun q hq => h q (List.mem_cons_of_mem p hq))
    have hp := h p (List.mem_cons_self p t)
    simp only [beliefSum, List.map_cons, List.sum_cons]
    simp only [beliefSum] at ht
    linarith

lemma beliefSum_pos_exists (l : Belief) (h : 0 < beliefSum l) : ∃ q ∈ l, 0 < q.2 := by
  by_contra hc
  push_neg at hc
  have := beliefSum_nonpos l hc
  linarith

lemma sortDesc_take_sum_pos (l : Belief) (num : ℕ) (h1 : 1 ≤ num)
    (hnn : ∀ p ∈ l, 0 ≤ p.2) (hpos : 0 < beliefSum l) :
    0 < beliefSum ((sortDesc l).take num) := by
  obtain ⟨q, hq, hqpos⟩ := beliefSum_pos_exists l hpos
  have hmem : q ∈ sortDesc l := (sortDesc_perm l).mem_iff.mpr hq
  cases hsd : sortDesc l with
  | nil => rw [hsd] at hmem; simp at hmem
  | cons h₀ rest =>
    have hsorted := sortDesc_sorted l
    rw [hsd] at hsorted hmem
    rw [DescSorted, List.pairwise_cons] at hsorted
    have hh₀ : 0 < h₀.2 := by
      rcases List.mem_cons.mp hmem with rfl | hr
      · exact hqpos
      · exact lt_of_lt_of_le hqpos (hsorted.1 q hr)
    obtain ⟨n, rfl⟩ : ∃ n, num = n + 1 := ⟨num - 1, by omega⟩
    rw [List.take_succ_cons]
    have hrest : 0 ≤ beliefSum (rest.take n) := by
      refine beliefSum_nonneg _ (fun p hp => ?_)
      have hpl : p ∈ l := by
        refine (sortDesc_perm l).mem_iff.mp ?_
        rw [hsd]
        exact List.mem_cons_of_mem h₀ (List.take_subset n rest hp)
      exact hnn p hpl
    simp only [beliefSum, List.map_cons, List.sum_cons]
    simp only [beliefSum] at hrest
    linarith

lemma truncateTop_sum (num : ℕ) (l : Belief) (h1 : 1 ≤ num)
    (hnn : ∀ p ∈ l, 0 ≤ p.2) (hpos : 0 < beliefSum l) :
    beliefSum (truncateTop num l) = 1 :=
  normalizeLast_sum _ (sortDesc_take_sum_pos l num h1 hnn hpos)

lemma filter_length_split {α : Type} (p : α → Bool) (l : List α) :
    (l.filter p).length + (l.filter (fun a => !(p a))).length = l.length := by
  induction l with
  | nil => simp
  | cons a t ih =>
    by_cases h : p a = true
    · simp [List.filter_cons, h, ih]
      omega
    · simp [List.filter_cons, h, Bool.not_eq_true _ ▸ h]
      omega

lemma pad_fold_eq (existing : List (List Char)) (num : ℕ) :
    ∀ (fb : List (List Char)) (acc : Belief), fb.Nodup →
      (∀ d ∈ fb, d ∉ existing → d ∉ acc.map (·.1)) →
      fb.foldl (padStep existing num) acc
        = acc ++ ((fb.filter (fun d => decide (d ∉ existing))).take
            (num - acc.length)).map (fun d => (d, (1:ℚ)/10000)) := by
  intro fb
  induction fb with
  | nil => intro acc _ _; simp
  | cons d fb' ih =>
    intro acc hnd hinv
    rw [List.nodup_cons] at hnd
    rw [List.foldl_cons]
    by_cases hd : d ∈ existing
    · have hstep : padStep existing num acc d = acc := by
        unfold padStep
        rw [if_neg]
        rintro ⟨hne, _⟩
        exact hne hd
      rw [hstep, List.filter_cons_of_neg (by simpa using hd)]
      exact ih acc hnd.2 (fun d' hd' hne => hinv d' (List.mem_cons_of_mem d hd') hne)
    · rw [List.filter_cons_of_pos (by simpa using hd)]
      by_cases hlen : acc.length < num
      · have hnotk : d ∉ acc.map (·.1) := hinv d (List.mem_cons_self d fb') hd
        have hstep : padStep existing num acc d = acc ++ [(d, 1/10000)] := by
          unfold padStep
          rw [if_pos ⟨hd, hlen⟩, dictInsert_of_not_mem acc d _ hnotk]
        rw [hstep]
        have hinv' : ∀ d' ∈ fb', d' ∉ existing →
            d' ∉ (acc ++ [(d, (1:ℚ)/10000)]).map (·.1) := by
          intro d' hd' hne
          rw [List.map_append, List.mem_append]
          rintro (h | h)
          · exact hinv d' (List.mem_cons_of_mem d hd') hne h
          · simp only [List.map_cons, List.map_nil, List.mem_singleton] at h
            exact hnd.1 (h ▸ hd')
        rw [ih (acc ++ [(d, 1/10000)]) hnd.2 hinv']
        have harith : num - acc.length = (num - (acc ++ [(d, (1:ℚ)/10000)]).length) + 1 := by
          simp only [List.length_append, List.length_singleton]
          omega
        rw [harith, List.take_succ_cons, List.map_cons, List.append_assoc]
        rfl

      · have hstep : padStep existing num acc d = acc := by
          unfold padStep
          rw [if_neg]
          rintro ⟨_, h⟩
          exact hlen h
        rw [hstep]
        have h0 : num - acc.length = 0 := by omega
        rw [ih acc hnd.2 (fun d' hd' hne => hinv d' (List.mem_cons_of_mem d hd') hne)]
        rw [h0]
        simp

lemma padFallback_eq (num : ℕ) (l : Belief) :
    padFallback num l
      = l ++ ((POTENTIAL_SKIN_DIAGNOSES.filter
          (fun d => decide (d ∉ l.map (·.1)))).take (num - l.length)).map
            (fun d => (d, (1:ℚ)/10000)) := by
  unfold padFallback
  exact pad_fold_eq _ num POTENTIAL_SKIN_DIAGNOSES l (by decide) (fun d _ h => h)

lemma padFallback_length (num : ℕ) (l : Belief) :
    (padFallback num l).length
      = l.length + min (num - l.length)
          ((POTENTIAL_SKIN_DIAGNOSES.filter
            (fun d => decide (d ∉ l.map (·.1)))).length) := by
  rw [padFallback_eq]
  simp [List.length_take]

lemma beliefSum_constMap (xs : List (List Char)) (c : ℚ) :
    beliefSum (xs.map (fun d => (d, c))) = xs.length * c := by
  induction xs with
  | nil => simp [beliefSum]
  | cons x t ih =>
    simp only [List.map_cons, beliefSum, List.sum_cons, List.length_cons] at ih ⊢
    rw [ih]
    push_cast
    ring

lemma padFallback_sum (num : ℕ) (l : Belief) :
    beliefSum (padFallback num l)
      = beliefSum l + (min (num - l.length)
          ((POTENTIAL_SKIN_DIAGNOSES.filter
            (fun d => decide (d ∉ l.map (·.1)))).length) : ℕ) * ((1:ℚ)/10000) := by
  rw [padFallback_eq, beliefSum_append, beliefSum_constMap, List.length_take]

lemma pad_avail_ge (l : Belief) :
    10 - l.length
      ≤ (POTENTIAL_SKIN_DIAGNOSES.filter (fun d => decide (d ∉ l.map (·.1)))).length := by
  have hsplit := filter_length_split (fun d => decide (d ∉ l.map (·.1)))
    POTENTIAL_SKIN_DIAGNOSES
  have hten : POTENTIAL_SKIN_DIAGNOSES.length = 10 := by decide
  have hsub : (POTENTIAL_SKIN_DIAGNOSES.filter
      (fun d => !(decide (d ∉ l.map (·.1))))) ⊆ l.map (·.1) := by
    intro d hd
    have h2 := (List.mem_filter.mp hd).2
    simpa using h2
  have hnodup : (POTENTIAL_SKIN_DIAGNOSES.filter
      (fun d => !(decide (d ∉ l.map (·.1))))).Nodup :=
    List.Nodup.filter _ (by decide)
  have hle := (List.subperm_of_subset hnodup hsub).length_le
  rw [List.length_map] at hle
  omega

lemma processContent_sum_one (content : List Char) (num : ℕ)
    (hpos : 0 < beliefSum (extractLines content)) (h1 : 1 ≤ num) :
    beliefSum (processContent content num) = 1 := by
  unfold processContent
  dsimp only
  have hx := extractLines_bounds content
  have hs1 : beliefSum (normalizeLast (extractLines content)) = 1 :=
    normalizeLast_sum _ hpos
  have hnn1 : ∀ p ∈ normalizeLast (extractLines content), 0 ≤ p.2 :=
    normalizeLast_nonneg _ (fun p hp => (hx p hp).1)
  by_cases hlen : (normalizeLast (extractLines content)).length < num
  · rw [if_pos hlen]
    have hnn2 : 0 ≤ ((min (num - (normalizeLast (extractLines content)).length)
        ((POTENTIAL_SKIN_DIAGNOSES.filter (fun d =>
          decide (d ∉ (normalizeLast (extractLines content)).map (·.1)))).length) : ℕ)
            : ℚ) * ((1:ℚ)/10000) := by positivity
    have hpadpos : 0 < beliefSum (padFallback num (normalizeLast (extractLines content))) := by
      rw [padFallback_sum, hs1]
      linarith
    have hlen2 : (normalizeLast (padFallback num (normalizeLast (extractLines content)))).length
        ≤ num := by
      rw [normalizeLast_length, padFallback_length]
      have := Nat.min_le_left (num - (normalizeLast (extractLines content)).length)
        ((POTENTIAL_SKIN_DIAGNOSES.filter (fun d =>
          decide (d ∉ (normalizeLast (extractLines content)).map (·.1)))).length)
      omega
    rw [if_neg (by omega)]
    exact normalizeLast_sum _ hpadpos
  · rw [if_neg hlen]
    by_cases htr : num < (normalizeLast (extractLines content)).length
    · rw [if_pos htr]
      exact truncateTop_sum num _ h1 hnn1 (by rw [hs1]; norm_num)
    · rw [if_neg htr]
      exact hs1

lemma processContent_pad (content : List Char) (num : ℕ)
    (hlt : (extractLines content).length < num) (h10 : num ≤ 10) :
    (processContent content num).length = num
      ∧ beliefSum (processContent content num) = 1 := by
  have hx := extractLines_bounds content
  have hlen1 : (normalizeLast (extractLines content)).length
      = (extractLines content).length := normalizeLast_length _
  have hnn1 : ∀ p ∈ normalizeLast (extractLines content), 0 ≤ p.2 :=
    normalizeLast_nonneg _ (fun p hp => (hx p hp).1)
  have havail := pad_avail_ge (normalizeLast (extractLines content))
  have hmin : min (num - (normalizeLast (extractLines content)).length)
      ((POTENTIAL_SKIN_DIAGNOSES.filter (fun d =>
        decide (d ∉ (normalizeLast (extractLines content)).map (·.1)))).length)
      = num - (normalizeLast (extractLines content)).length := by
    apply Nat.min_eq_left
    omega
  have hpadlen : (padFallback num (normalizeLast (extractLines content))).length = num := by
    rw [padFallback_length, hmin]
    omega
  have hone : (1:ℚ) ≤ ((num - (normalizeLast (extractLines content)).length : ℕ) : ℚ) := by
    have : 1 ≤ num - (normalizeLast (extractLines content)).length := by omega
    exact_mod_cast this
  have hlnn : 0 ≤ beliefSum (normalizeLast (extractLines content)) :=
    beliefSum_nonneg _ hnn1
  have hpadpos : 0 < beliefSum (padFallback num (normalizeLast (extractLines content))) := by
    rw [padFallback_sum, hmin]
    nlinarith
  have hc1 : (normalizeLast (extractLines content)).length < num := by omega
  have hc2 : ¬ num
      < (normalizeLast (padFallback num (normalizeLast (extractLines content)))).length := by
    rw [normalizeLast_length, hpadlen]
    omega
  unfold processContent
  dsimp only
  rw [if_pos hc1, if_neg hc2]
  exact ⟨by rw [normalizeLast_length, hpadlen], normalizeLast_sum _ hpadpos⟩

lemma rsum_nonpos (l : List ℝ) (h : ∀ x ∈ l, x ≤ 0) : l.sum ≤ 0 := by
  induction l with
  | nil => simp
  | cons a t ih =>
    have ht := ih (fun x hx => h x (List.mem_cons_of_mem a hx))
    have ha := h a (List.mem_cons_self a t)
    simp only [List.sum_cons]
    linarith

lemma rsum_eq_zero_of_nonpos (l : List ℝ) (h : ∀ x ∈ l, x ≤ 0) (hs : l.sum = 0) :
    ∀ x ∈ l, x = 0 := by
  induction l with
  | nil => simp
  | cons a t ih =>
    have ht : t.sum ≤ 0 := rsum_nonpos t (fun x hx => h x (List.mem_cons_of_mem a hx))
    have ha := h a (List.mem_cons_self a t)
    simp only [List.sum_cons] at hs
    have ha0 : a = 0 := by linarith
    have hts : t.sum = 0 := by linarith
    intro x hx
    rcases List.mem_cons.mp hx with rfl | hxt
    · exact ha0
    · exact ih (fun y hy => h y (List.mem_cons_of_mem a hy)) hts x hxt

lemma beliefSum_zero_all (l : Belief) (h : ∀ p ∈ l, 0 ≤ p.2) (hs : beliefSum l = 0) :
    ∀ p ∈ l, p.2 = 0 := by
  induction l with
  | nil => simp
  | cons a t ih =>
    have htnn : 0 ≤ beliefSum t :=
      beliefSum_nonneg t (fun x hx => h x (List.mem_cons_of_mem a hx))
    have ha := h a (List.mem_cons_self a t)
    simp only [beliefSum, List.map_cons, List.sum_cons] at hs
    simp only [beliefSum] at htnn
    have ha0 : a.2 = 0 := by linarith
    have hts : beliefSum t = 0 := by simp only [beliefSum]; linarith
    intro p hp
    rcases List.mem_cons.mp hp with rfl | hpt
    · exact ha0
    · exact ih (fun y hy => h y (List.mem_cons_of_mem a hy)) hts p hpt

lemma entropy_term_nonpos (q : ℚ) (h0 : 0 < q) (h1 : q ≤ 1) :
    (q : ℝ) * Real.logb 2 (q : ℝ) ≤ 0 := by
  have hq0 : (0:ℝ) ≤ (q:ℝ) := by exact_mod_cast le_of_lt h0
  have hlog : Real.logb 2 (q:ℝ) ≤ 0 :=
    Real.logb_nonpos one_lt_two hq0 (by exact_mod_cast h1)
  exact mul_nonpos_iff.mpr (Or.inl ⟨hq0, hlog⟩)

/-- C5: the entropy scorer computes `-Σ p·log2(p)` over the entries with
`p > 0` (that is its definition, from `src/utils/entropy.py` lines 5-10),
yields 0 on the empty map, is nonnegative on every belief state whose
probabilities lie in `[0,1]`, and on a belief state whose probabilities
moreover sum to 1 it is zero exactly when some diagnosis has probability 1. -/
theorem c5_entropy_spec :
    calculate_entropy [] = 0 ∧
    (∀ l : Belief, (∀ p ∈ l, 0 ≤ p.2 ∧ p.2 ≤ 1) → 0 ≤ calculate_entropy l) ∧
    (∀ l : Belief, (∀ p ∈ l, 0 ≤ p.2 ∧ p.2 ≤ 1) → beliefSum l = 1 →
      (calculate_entropy l = 0 ↔ ∃ p ∈ l, p.2 = 1)) := by
  refine ⟨by simp [calculate_entropy], ?_, ?_⟩
  · intro l hl
    unfold calculate_entropy
    rw [neg_nonneg]
    apply rsum_nonpos
    intro x hx
    rw [List.mem_map] at hx
    obtain ⟨p, hp, rfl⟩ := hx
    rw [List.mem_filter] at hp
    have hpos : 0 < p.2 := by simpa using hp.2
    exact entropy_term_nonpos p.2 hpos (hl p hp.1).2
  · intro l hl hsum
    constructor
    · intro hzero
      obtain ⟨q, hq, hqpos⟩ := beliefSum_pos_exists l (by rw [hsum]; norm_num)
      have hqf : q ∈ l.filter (fun p => decide (0 < p.2)) :=
        List.mem_filter.mpr ⟨hq, by simpa using hqpos⟩
      have hnonpos : ∀ x ∈ (l.filter (fun p => decide (0 < p.2))).map
          (fun p => (p.2 : ℝ) * Real.logb 2 (p.2 : ℝ)), x ≤ 0 := by
        intro x hx
        obtain ⟨p, hp, rfl⟩ := List.mem_map.mp hx
        rw [List.mem_filter] at hp
        exact entropy_term_nonpos p.2 (by simpa using hp.2) (hl p hp.1).2
      have hsumzero : ((l.filter (fun p => decide (0 < p.2))).map
          (fun p => (p.2 : ℝ) * Real.logb 2 (p.2 : ℝ))).sum = 0 := by
        unfold calculate_entropy at hzero
        linarith [neg_eq_zero.mp hzero]
      have hterm : (q.2 : ℝ) * Real.logb 2 (q.2 : ℝ) = 0 :=
        rsum_eq_zero_of_nonpos _ hnonpos hsumzero _ (List.mem_map.mpr ⟨q, hqf, rfl⟩)
      rcases mul_eq_zero.mp hterm with hq2 | hlog
      · exfalso
        have : q.2 = 0 := by exact_mod_cast hq2
        rw [this] at hqpos
        exact lt_irrefl 0 hqpos
      · rw [Real.logb_eq_zero] at hlog
        rcases hlog with h | h | h | h | h | h
        · norm_num at h
        · norm_num at h
        · norm_num at h
        · exfalso
          have : q.2 = 0 := by exact_mod_cast h
          rw [this] at hqpos
          exact lt_irrefl 0 hqpos
        · exact ⟨q, hq, by exact_mod_cast h⟩
        · exfalso
          have : q.2 = -1 := by exact_mod_cast h
          rw [this] at hqpos
          norm_num at hqpos
    · rintro ⟨p₀, hp₀, hp₀1⟩
      obtain ⟨s, t, rfl⟩ := List.append_of_mem hp₀
      have hnn : ∀ p ∈ s ++ p₀ :: t, 0 ≤ p.2 := fun p hp => (hl p hp).1
      have hsnn : 0 ≤ beliefSum s :=
        beliefSum_nonneg s (fun p hp => hnn p (List.mem_append_left _ hp))
      have htnn : 0 ≤ beliefSum t := by
        refine beliefSum_nonneg t (fun p hp => hnn p ?_)
        exact List.mem_append_right _ (List.mem_cons_of_mem p₀ hp)
      have hexp : beliefSum (s ++ p₀ :: t) = beliefSum s + (p₀.2 + beliefSum t) := by
        rw [beliefSum_append]
        simp [beliefSum]
      rw [hexp, hp₀1] at hsum
      have hs0 : ∀ p ∈ s, p.2 = 0 := by
        apply beliefSum_zero_all s (fun p hp => hnn p (List.mem_append_left _ hp))
        linarith
      have ht0 : ∀ p ∈ t, p.2 = 0 := by
        refine beliefSum_zero_all t (fun p hp => hnn p ?_) (by linarith)
        exact List.mem_append_right _ (List.mem_cons_of_mem p₀ hp)
      have hfs : s.filter (fun p => decide (0 < p.2)) = [] := by
        rw [List.filter_eq_nil_iff]
        intro p hp
        simp [hs0 p hp]
      have hft : t.filter (fun p => decide (0 < p.2)) = [] := by
        rw [List.filter_eq_nil_iff]
        intro p hp
        simp [ht0 p hp]
      have hfil : (s ++ p₀ :: t).filter (fun p => decide (0 < p.2)) = [p₀] := by
        rw [List.filter_append, hfs, List.filter_cons_of_pos (by simp [hp₀1]), hft]
        simp
      unfold calculate_entropy
      rw [hfil]
      simp [hp₀1]

/-- Witness for C5 at the concrete belief `{Warts: 1}`. -/
theorem c5_entropy_spec_witness :
    0 ≤ calculate_entropy [("Warts".data, 1)] ∧
    (calculate_entropy [("Warts".data, 1)] = 0 ↔
      ∃ p ∈ ([("Warts".data, 1)] : Belief), p.2 = 1) :=
  ⟨c5_entropy_spec.2.1 _ (by decide), c5_entropy_spec.2.2 _ (by decide) (by decide)⟩

lemma scenario_fold_skip (lines : List (List Char)) :
    ∀ acc : Belief, (∀ line ∈ lines, line.contains '|' = false) →
      lines.foldlM scenarioStep acc = .ok acc := by
  induction lines with
  | nil => intro acc _; rfl
  | cons line rest ih =>
    intro acc h
    have hline := h line (List.mem_cons_self line rest)
    have hstep : scenarioStep acc line = .ok acc := by
      unfold scenarioStep
      rw [hline]
      simp
    rw [List.foldlM_cons, hstep]
    exact ih acc (fun l hl => h l (List.mem_cons_of_mem line hl))

/-- C6 (amended): the scenario parser (`probability_agent.py` lines 115-125)
skips lines without a pipe silently (a response with zero such lines, the
empty response included, yields the empty mapping `ok []`), trims whitespace,
parses the probability as a float, and de-duplicates scenarios by exact text
with the first occurrence winning (a duplicate's probability text is not even
parsed, so a malformed duplicate is also dropped silently); but it splits on
EVERY pipe, not only the first, so a line with more than one pipe raises
`ValueError` in the tuple unpacking, and an unparseable probability on a fresh
scenario line also raises — such lines are not dropped silently. -/
theorem c6_scenario_parser_amended :
    (∀ content : List Char,
      (∀ line ∈ pySplit ['\n'] content, line.contains '|' = false) →
      calculate_scenario_probabilities content = .ok []) ∧
    calculate_scenario_probabilities "".data = .ok [] ∧
    calculate_scenario_probabilities " Flu |0.5\nFlu|0.9\nno pipe line\nCold| 0.25 ".data
      = .ok [("Flu".data, 1/2), ("Cold".data, 1/4)] ∧
    calculate_scenario_probabilities "Flu|0.5\nFlu|bad".data = .ok [("Flu".data, 1/2)] := by
  refine ⟨?_, by decide, by decide, by decide⟩
  intro content h
  exact scenario_fold_skip (pySplit ['\n'] content) [] h

/-- Witness for C6 (amended) at a pipe-free oracle response. -/
theorem c6_scenario_parser_amended_witness :
    calculate_scenario_probabilities "I am not sure".data = .ok [] :=
  c6_scenario_parser_amended.1 "I am not sure".data (by decide)

/-- C6 counterexample: the claim says the sampler "returns a mapping without
raising", splitting each line "on the first pipe delimiter" and dropping
malformed lines silently; in fact a patient-answer line containing a second
pipe makes `scenario, prob = line.split('|')` raise `ValueError`, and an
unparseable probability on a fresh line raises too — no mapping is returned
for these oracle outputs. -/
theorem c6_scenario_parser_counterexample :
    (calculate_scenario_probabilities "Yes, severe pain|0.5|left side".data).isOk = false ∧
    (calculate_scenario_probabilities "Yes|almost certain".data).isOk = false := by
  decide

/-- C2 counterexample: after the post-answer restriction to the focused
disease set (`diagnostic_engine.py` lines 311-316, same code at 227-232), when
the oracle update contains none of the focused diseases every restricted
probability is 0, the `total > 0` guard fails, no renormalisation happens, and
the belief state the system holds sums to 0 — not 1.0 within 1e-6. -/
theorem c2_sum_counterexample :
    focusFilter ["Basal Cell Carcinoma".data] [("Warts".data, 1)]
      = [("Basal Cell Carcinoma".data, 0)] ∧
    beliefSum (focusFilter ["Basal Cell Carcinoma".data] [("Warts".data, 1)]) = 0 ∧
    ¬ |(1:ℚ) - beliefSum (focusFilter ["Basal Cell Carcinoma".data] [("Warts".data, 1)])|
      ≤ 1/1000000 := by
  have h0 : beliefSum (focusFilter ["Basal Cell Carcinoma".data] [("Warts".data, 1)]) = 0 := by
    decide
  refine ⟨by decide, h0, ?_⟩
  rw [h0]
  norm_num

/-- C2 (amended): every belief the system holds sums to exactly 1.0 after any
update or narrowing whose pre-normalisation total is positive — the
post-answer/narrowing restriction to the focused diseases, and the diagnoser
update pipeline whenever the extracted probabilities have positive sum and at
least one disease is requested.  When the total is not positive the `total >
0` guards skip normalisation and the held mapping can sum to 0 instead. -/
theorem c2_sum_amended :
    (∀ (focused : List (List Char)) (probs : Belief),
      0 < beliefSum (focused.map (fun d => (d, lookupProb probs d))) →
      beliefSum (focusFilter focused probs) = 1) ∧
    (∀ (content : List Char) (num : ℕ),
      0 < beliefSum (extractLines content) → 1 ≤ num →
      beliefSum (processContent content num) = 1) :=
  ⟨focusFilter_sum, processContent_sum_one⟩

/-- Witness for C2 (amended) at concrete inputs. -/
theorem c2_sum_amended_witness :
    beliefSum (focusFilter ["Flu".data] [("Flu".data, 1/2), ("Cold".data, 1/2)]) = 1 ∧
    beliefSum (processContent "Flu|0.5\nCold|0.6".data 2) = 1 :=
  ⟨c2_sum_amended.1 _ _ (by decide), c2_sum_amended.2 _ 2 (by decide) (by decide)⟩

/-- C3 counterexample: the oracle output `"X|0.0\nY|0.0"` with targetCount 2
yields two well-formed extracted lines, but their sum is 0, so the `total > 0`
guard skips the division and the residual step, and the returned mapping
totals 0, not exactly 1.0 as the claim states for every output with at least
one well-formed line. -/
theorem c3_renormalize_counterexample :
    processContent "X|0.0\nY|0.0".data 2 = [("X".data, 0), ("Y".data, 0)] ∧
    beliefSum (processContent "X|0.0\nY|0.0".data 2) = 0 ∧ (0:ℚ) ≠ 1 :=
  ⟨by decide, by decide, by norm_num⟩

/-- C3 (amended): whenever the extracted `label|probability` lines have a
positive total (at least one well-formed line with positive probability) and
at least one disease is requested, the updater renormalises by dividing every
probability by the current sum and then adds the residual `1 - sum` to the
last-inserted label (insertion order, not magnitude — the `bumpLast` of
`normalizeLast`), and the returned total is exactly 1.0; concretely
`"Flu|0.5\nCold|0.6"` with targetCount 2 returns `{Flu: 5/11, Cold: 6/11}`.
When every extracted probability is 0 the renormalisation is skipped. -/
theorem c3_renormalize_amended :
    (∀ (content : List Char) (num : ℕ),
      0 < beliefSum (extractLines content) → 1 ≤ num →
      beliefSum (processContent content num) = 1) ∧
    (∀ content : List Char, 0 < beliefSum (extractLines content) →
      normalizeLast (extractLines content)
        = bumpLast (1 - beliefSum (divideAll (extractLines content)
            (beliefSum (extractLines content))))
            (divideAll (extractLines content) (beliefSum (extractLines content)))) ∧
    processContent "Flu|0.5\nCold|0.6".data 2
      = [("Flu".data, 5/11), ("Cold".data, 6/11)] := by
  refine ⟨processContent_sum_one, ?_, by decide⟩
  intro content h
  unfold normalizeLast
  dsimp only
  rw [if_pos h]

/-- Witness for C3 (amended) at a concrete oracle output. -/
theorem c3_renormalize_amended_witness :
    beliefSum (processContent "A|0.2\nB|0.2".data 2) = 1 :=
  c3_renormalize_amended.1 _ 2 (by decide) (by decide)

/-- C4 counterexample: with targetCount 11 and zero well-formed lines
extracted, the padding loop adds all 10 fallback diagnoses and stops — the
fallback list is exhausted before "the count of targetCount entries is
reached". -/
theorem c4_padding_counterexample :
    (processContent "no parseable lines here".data 11).length = 10 ∧ (10:ℕ) ≠ 11 :=
  ⟨by decide, by norm_num⟩

/-- C4 (amended): whenever fewer than targetCount well-formed lines are
extracted AND targetCount does not exceed the size (10) of the fallback list,
the updater pads with fallback diagnoses at probability 0.0001 each, skipping
any fallback label already present, until exactly targetCount entries are
held, and then renormalises so the total is exactly 1.0; in particular, with
targetCount=5 and only 2 valid lines extracted, exactly 3 fallback labels are
added at 0.0001 each before renormalisation.  With targetCount beyond 10 the
fallback list can be exhausted before the count is reached. -/
theorem c4_padding_amended :
    (∀ (content : List Char) (num : ℕ),
      (extractLines content).length < num → num ≤ 10 →
      (processContent content num).length = num
        ∧ beliefSum (processContent content num) = 1) ∧
    padFallback 5 (normalizeLast (extractLines "Flu|0.4\nCold|0.4".data))
      = [("Flu".data, 1/2), ("Cold".data, 1/2), ("Warts".data, 1/10000),
         ("Psoriasis".data, 1/10000), ("Eczema (Atopic Dermatitis)".data, 1/10000)] ∧
    processContent "Flu|0.4\nCold|0.4".data 5
      = [("Flu".data, 5000/10003), ("Cold".data, 5000/10003), ("Warts".data, 1/10003),
         ("Psoriasis".data, 1/10003), ("Eczema (Atopic Dermatitis)".data, 1/10003)] := by
  have hpad : ∀ (content : List Char) (num : ℕ),
      (extractLines content).length < num → num ≤ 10 →
      (processContent content num).length = num
        ∧ beliefSum (processContent content num) = 1 := by
    intro content num h1 h2
    exact processContent_pad content num h1 h2
  exact ⟨hpad, by decide, by decide⟩

/-- Witness for C4 (amended): targetCount 5 with 2 valid lines reaches 5
entries summing to exactly 1. -/
theorem c4_padding_amended_witness :
    (processContent "Flu|0.4\nCold|0.4".data 5).length = 5
      ∧ beliefSum (processContent "Flu|0.4\nCold|0.4".data 5) = 1 :=
  c4_padding_amended.1 _ 5 (by decide) (by decide)

lemma update_ret_eq (st : DiagnoserState) (additional oracle : List Char) (num : ℕ) :
    (update_probabilities st additional oracle true num).2.2
      = (if 1 < (pySplit ['\n', '\n'] oracle).length then
          (if (pySplit ['\n', '\n'] oracle).head! ≠ [] then
            some (pySplit ['\n', '\n'] oracle).head! else none)
         else none) := by
  by_cases h1 : 1 < (pySplit ['\n', '\n'] oracle).length
  · by_cases h2 : (pySplit ['\n', '\n'] oracle).head! ≠ []
    · simp [update_probabilities, splitReasoning, h1, h2]
    · simp [update_probabilities, splitReasoning, h1, h2]
  · simp [update_probabilities, splitReasoning, h1]

/-- C10: with `get_reasoning=True`, `update_probabilities` returns the
`(probabilities, reasoning)` pair exactly when the oracle response splits on a
double newline into more than one part whose first part is non-empty (the
Python `if get_reasoning and reasoning:` of lines 137-142 and 216-219); for
every response without such a separator — including the fixed API-error
sentinel text — it returns the probabilities mapping alone, so the return
shape of the method depends on the oracle output. -/
theorem c10_return_shape (st : DiagnoserState) (additional oracle : List Char) (num : ℕ) :
    ((update_probabilities st additional oracle true num).2.2.isSome = true ↔
      (1 < (pySplit ['\n', '\n'] oracle).length
        ∧ (pySplit ['\n', '\n'] oracle).head! ≠ [])) ∧
    (update_probabilities st additional apiErrorSentinel true num).2.2 = none := by
  constructor
  · rw [update_ret_eq]
    by_cases h1 : 1 < (pySplit ['\n', '\n'] oracle).length
    · by_cases h2 : (pySplit ['\n', '\n'] oracle).head! ≠ [] <;> simp [h1, h2]
    · simp [h1]
  · rw [update_ret_eq]
    have hlen : (pySplit ['\n', '\n'] apiErrorSentinel).length = 1 := by decide
    simp [hlen]

lemma gtTrace_all_true (post : List (ℕ × Bool)) (r : ℕ) :
    gtTrace ⟨true, some r⟩ post = List.replicate (post.length + 1) ⟨true, some r⟩ := by
  induction post with
  | nil => rfl
  | cons s rest ih =>
    have hstep : gtNarrowStep ⟨true, some r⟩ s.1 s.2 = ⟨true, some r⟩ := rfl
    rw [gtTrace, hstep, ih]
    rfl

/-- C7 (spec-modelled): over any narrowing run in which the ground-truth label
survives every narrowing of the prefix and is evicted at some narrowing with
rank `r` immediately prior, the tracker records `narrowed_out = false` with no
rank up to and including the state before the eviction, and from the eviction
on every state is exactly `narrowed_out = true` with the frozen rank `r` — so
the flag becomes true exactly once and the rank is never updated again,
whatever the later steps are. -/
theorem c7_ground_truth_tracking (pre post : List (ℕ × Bool)) (r : ℕ)
    (hpre : ∀ s ∈ pre, s.2 = true) :
    gtTrace ⟨false, none⟩ (pre ++ (r, false) :: post)
      = List.replicate (pre.length + 1) ⟨false, none⟩
        ++ List.replicate (post.length + 1) ⟨true, some r⟩ := by
  induction pre with
  | nil =>
    rw [List.nil_append, gtTrace]
    have hstep : gtNarrowStep ⟨false, none⟩ r false = ⟨true, some r⟩ := rfl
    rw [hstep, gtTrace_all_true]
    rfl
  | cons s pre' ih =>
    have hs := hpre s (List.mem_cons_self s pre')
    rw [List.cons_append, gtTrace]
    have hstep : gtNarrowStep ⟨false, none⟩ s.1 s.2 = ⟨false, none⟩ := by
      simp [gtNarrowStep, hs]
    rw [hstep, ih (fun x hx => hpre x (List.mem_cons_of_mem s hx))]
    rfl

/-- Witness for C7 at a concrete run: the label survives the first narrowing,
is evicted at the second with prior rank 2, and later steps change nothing. -/
theorem c7_ground_truth_tracking_witness :
    gtTrace ⟨false, none⟩ ([(1, true)] ++ (2, false) :: [(5, true), (7, false)])
      = List.replicate 2 ⟨false, none⟩ ++ List.replicate 3 ⟨true, some 2⟩ :=
  c7_ground_truth_tracking [(1, true)] [(5, true), (7, false)] 2 (by decide)

lemma eval_fold_state (scenarios : List (List Char × ℚ))
    (oracleFor : List Char → List Char) (question : List Char)
    (diag : DiagnoserState) (current_probs : Belief) (max_diseases : ℕ) :
    ∀ (c : DiagnoserState) (ps : List Belief),
      (scenarios.foldl (fun acc sc =>
        let caller := acc.1
        let temp : DiagnoserState :=
          { patient_info := diag.patient_info,
            previous_probabilities := current_probs,
            base_diseases := caller.base_diseases }
        let r := update_probabilities temp
          ("Question: ".data ++ question ++ ", Answer: ".data ++ sc.1)
          (oracleFor sc.1) false max_diseases
        ({ caller with base_diseases := r.1.base_diseases }, acc.2 ++ [r.2.1]))
        (c, ps)).1
      = { c with base_diseases := scenarios.foldl (fun b sc =>
            updateBase b ((extractLines (oracleFor sc.1)).map (·.1))) c.base_diseases } := by
  induction scenarios with
  | nil => intro c ps; rfl
  | cons sc rest ih =>
    intro c ps
    rw [List.foldl_cons, List.foldl_cons]
    exact ih _ _

/-- C8 (amended): evaluating one candidate question leaves the caller's
`patient_info`, `previous_probabilities` and the shared current belief
mapping unchanged (the hypothetical updates build fresh dicts on a temporary
agent), but `base_diseases` is shared BY REFERENCE, not copied: every
hypothetical update appends its newly parsed diseases to the caller's very
list, so concurrent evaluations can observe each other's `base_diseases`
growth. -/
theorem c8_isolation_amended (scenarios : List (List Char × ℚ))
    (oracleFor : List Char → List Char) (question : List Char)
    (diag : DiagnoserState) (current_probs : Belief) (max_diseases : ℕ) :
    (evaluate_question_info_gain scenarios oracleFor question diag current_probs
        max_diseases).1.patient_info = diag.patient_info ∧
    (evaluate_question_info_gain scenarios oracleFor question diag current_probs
        max_diseases).1.previous_probabilities = diag.previous_probabilities ∧
    (evaluate_question_info_gain scenarios oracleFor question diag current_probs
        max_diseases).1.base_diseases
      = scenarios.foldl (fun b sc =>
          updateBase b ((extractLines (oracleFor sc.1)).map (·.1))) diag.base_diseases := by
  have h := eval_fold_state scenarios oracleFor question diag current_probs max_diseases diag []
  unfold evaluate_question_info_gain
  rw [h]
  exact ⟨rfl, rfl, rfl⟩

/-- C8 counterexample: a single hypothetical update whose oracle output names
a previously unseen disease appends it, through the aliased list, to the
caller's `base_diseases` — the caller's diagnoser state is not the same after
the evaluation, refuting the claim that the caller's state (including
`base_diseases`) is unchanged. -/
theorem c8_isolation_counterexample :
    (evaluate_question_info_gain [("yes".data, 1)] (fun _ => "Cold|1.0".data)
        "q".data ⟨[], [("Flu".data, 1)], some ["Flu".data]⟩ [("Flu".data, 1)] 1).1
      = ⟨[], [("Flu".data, 1)], some ["Flu".data, "Cold".data]⟩ ∧
    some ["Flu".data, "Cold".data] ≠ some ["Flu".data] :=
  ⟨by decide, by decide⟩

/-- C9 (amended): when more than two candidate questions are evaluated in a
turn, the worker-pool path catches each scoring exception per future: the
failing candidates are excluded and the collected result is the list of
successfully scored candidates — never an abort.  (With two or fewer
candidates the sequential path has no handler; see the counterexample.) -/
theorem c9_eval_failure_amended (evalQ : List Char → Except Unit (List Char × ℚ))
    (qs : List (List Char)) (h : 2 < qs.length) :
    collect_question_info_gains evalQ qs
      = .ok (qs.filterMap (fun q => (evalQ q).toOption)) := by
  unfold collect_question_info_gains
  rw [if_neg (by omega)]

/-- Witness for C9 (amended): three candidates with the middle one raising
yield the two successful scores, the turn not aborted. -/
theorem c9_eval_failure_amended_witness :
    collect_question_info_gains
      (fun q => if q = "b".data then .error () else .ok (q, 0))
      ["a".data, "b".data, "c".data]
      = .ok [("a".data, 0), ("c".data, 0)] := by
  rw [c9_eval_failure_amended _ _ (by decide)]
  decide

/-- C9 counterexample: the claim says a scoring exception is caught per
candidate on every turn of the loop; but with at most two available questions
the evaluation is sequential (`diagnostic_engine.py` lines 253-260) with no
try/except, so one failing candidate aborts the evaluation, and the whole
interview run errors out instead of completing. -/
theorem c9_eval_failure_counterexample :
    collect_question_info_gains
      (fun q => if q = "q2".data then .error () else .ok (q, 0))
      ["q1".data, "q2".data] = .error () ∧
    run_information_gain_network cfgC1 envFailingEval bs4 = .error () :=
  ⟨by decide, by decide⟩

lemma topHalfKeys_length (P : Belief) :
    (topHalfKeys P).length = min (max 1 (P.length / 2)) P.length := by
  simp [topHalfKeys, List.length_take, sortDesc_length]

lemma engineLoop_succ_of_step (cfg : EngineConfig) (env : EngineEnv) (fuel : ℕ)
    (st st' : EngineState) (h : engineStep cfg env st = .inr st') :
    engineLoop cfg env (fuel + 1) st = engineLoop cfg env fuel st' := by
  rw [engineLoop, h]

lemma engineLoop_succ_of_done (cfg : EngineConfig) (env : EngineEnv) (fuel : ℕ)
    (st : EngineState) (r : Except Unit EngineState) (h : engineStep cfg env st = .inl r) :
    engineLoop cfg env (fuel + 1) st = r := by
  rw [engineLoop, h]

lemma engineStep_exit (cfg : EngineConfig) (env : EngineEnv) (st : EngineState)
    (h : ¬ (1 < st.current_probs.length ∧ st.questions_asked < cfg.max_questions)) :
    engineStep cfg env st = .inl (.ok st) := by
  unfold engineStep
  rw [if_neg h]

lemma engineStep_ask (cfg : EngineConfig) (env : EngineEnv) (st : EngineState)
    (g : List (List Char × ℚ))
    (hcond : 1 < st.current_probs.length ∧ st.questions_asked < cfg.max_questions)
    (hfn : firstNarrowB cfg st = false) (hln : laterNarrowB cfg st = false)
    (hq : env.hasQuestions st.questions_asked = true)
    (hg : env.gains st.questions_asked = .ok g) (hne : g.isEmpty = false) :
    engineStep cfg env st
      = .inr { st with
               questions_asked := st.questions_asked + 1,
               current_probs :=
                 focusFilter st.focused_diseases (env.update st.questions_asked) } := by
  unfold engineStep
  rw [if_pos hcond]
  dsimp only
  rw [hfn, hln]
  simp only [Bool.false_eq_true, if_false, Bool.or_self]
  rw [hq]
  simp only [Bool.true_eq_false, if_false]
  rw [hg]
  dsimp only
  rw [hne]
  simp only [Bool.false_eq_true, if_false]

lemma engineStep_first_narrow_ask (cfg : EngineConfig) (env : EngineEnv) (st : EngineState)
    (g : List (List Char × ℚ))
    (hcond : 1 < st.current_probs.length ∧ st.questions_asked < cfg.max_questions)
    (hfn : firstNarrowB cfg st = true)
    (hkeep : ¬ max 1 (st.current_probs.length / 2) = 1)
    (hq : env.hasQuestions st.questions_asked = true)
    (hg : env.gains st.questions_asked = .ok g) (hne : g.isEmpty = false) :
    engineStep cfg env st
      = .inr { current_probs :=
                 focusFilter (topHalfKeys st.current_probs) (env.update st.questions_asked),
               questions_asked := st.questions_asked + 1,
               performed_first_narrowing := true,
               narrow_count := st.narrow_count + 1,
               focused_diseases := topHalfKeys st.current_probs,
               narrowing_events := st.narrowing_events ++
                 [⟨st.questions_asked, st.current_probs.length,
                   max 1 (st.current_probs.length / 2), topHalfKeys st.current_probs⟩],
               confident_diagnosis := st.confident_diagnosis } := by
  unfold engineStep
  rw [if_pos hcond]
  dsimp only
  rw [hfn]
  simp only [Bool.true_or, if_true]
  unfold narrowAction narrowFocused
  dsimp only
  rw [if_neg hkeep]
  dsimp only
  rw [hq]
  simp only [Bool.true_eq_false, if_false]
  rw [hg]
  dsimp only
  rw [hne]
  simp only [Bool.false_eq_true, if_false]

lemma c1_step_t0 (env : EngineEnv) (P : Belief) (fd : List (List Char))
    (ev : List NarrowEvent) (g : List (List Char × ℚ)) (hP : P.length = 4)
    (hq : env.hasQuestions 0 = true) (hg : env.gains 0 = .ok g)
    (hne : g.isEmpty = false) :
    engineStep cfgC1 env ⟨P, 0, false, 0, fd, ev, false⟩
      = .inr ⟨focusFilter fd (env.update 0), 1, false, 0, fd, ev, false⟩ :=
  engineStep_ask cfgC1 env ⟨P, 0, false, 0, fd, ev, false⟩ g
    ⟨show 1 < P.length by omega, show (0:ℕ) < cfgC1.max_questions by decide⟩ rfl rfl hq hg hne

lemma c1_step_t1 (env : EngineEnv) (P : Belief) (fd : List (List Char))
    (ev : List NarrowEvent) (g : List (List Char × ℚ)) (hP : P.length = 4)
    (hq : env.hasQuestions 1 = true) (hg : env.gains 1 = .ok g)
    (hne : g.isEmpty = false) :
    engineStep cfgC1 env ⟨P, 1, false, 0, fd, ev, false⟩
      = .inr ⟨focusFilter (topHalfKeys P) (env.update 1), 2, true, 1, topHalfKeys P,
              ev ++ [⟨1, P.length, max 1 (P.length / 2), topHalfKeys P⟩], false⟩ :=
  engineStep_first_narrow_ask cfgC1 env ⟨P, 1, false, 0, fd, ev, false⟩ g
    ⟨show 1 < P.length by omega, show (1:ℕ) < cfgC1.max_questions by decide⟩ rfl
    (show ¬ max 1 (P.length / 2) = 1 by rw [hP]; decide) hq hg hne

lemma c1_step_t2 (env : EngineEnv) (P : Belief) (fd : List (List Char))
    (ev : List NarrowEvent) (g : List (List Char × ℚ)) (hP : P.length = 2)
    (hq : env.hasQuestions 2 = true) (hg : env.gains 2 = .ok g)
    (hne : g.isEmpty = false) :
    engineStep cfgC1 env ⟨P, 2, true, 1, fd, ev, false⟩
      = .inr ⟨focusFilter fd (env.update 2), 3, true, 1, fd, ev, false⟩ :=
  engineStep_ask cfgC1 env ⟨P, 2, true, 1, fd, ev, false⟩ g
    ⟨show 1 < P.length by omega, show (2:ℕ) < cfgC1.max_questions by decide⟩ rfl rfl hq hg hne

lemma c1_step_t3 (env : EngineEnv) (P : Belief) (fd : List (List Char))
    (ev : List NarrowEvent) :
    engineStep cfgC1 env ⟨P, 3, true, 1, fd, ev, false⟩
      = .inl (.ok ⟨P, 3, true, 1, fd, ev, false⟩) :=
  engineStep_exit cfgC1 env _
    (fun h => absurd h.2 (show ¬ (3:ℕ) < cfgC1.max_questions by decide))

/-- C1 (amended): for an interview configured with `maxTurns=3` and
`turnsBeforeNarrowing=1`, starting from 4 candidate diagnoses, and whatever
beliefs the oracle returns (as long as questions remain available and every
turn's candidate evaluation collects at least one gain), the loop narrows
exactly once — at the check after turn 1, from 4 to 2 tracked diagnoses.  The
second narrowing (to 1) would fire only when `(turns - 1) % 2 == 0` again,
i.e. after turn 3, which the `maxTurns=3` budget prevents: the interview asks
all 3 questions, ends with 2 tracked diagnoses, and reports
`confident=true` only if the final top probability reaches the 0.75
confidence threshold — there is no early confident termination. -/
theorem c1_schedule_amended (env : EngineEnv) (bs : Belief) (hlen : bs.length = 4)
    (hq : ∀ t, env.hasQuestions t = true)
    (hg : ∀ t, ∃ g, env.gains t = .ok g ∧ g.isEmpty = false) :
    ∃ st, run_information_gain_network cfgC1 env bs = .ok st ∧
      st.narrowing_events.map (fun e => (e.turn, e.diseases_before, e.diseases_after))
        = [(1, 4, 2)] ∧
      st.questions_asked = 3 ∧ st.current_probs.length = 2 ∧ st.narrow_count = 1 ∧
      (st.confident_diagnosis = true ↔
        cfgC1.confidence_threshold ≤ (maxBySnd st.current_probs).2) := by
  obtain ⟨g0, hg0, hne0⟩ := hg 0
  obtain ⟨g1, hg1, hne1⟩ := hg 1
  obtain ⟨g2, hg2, hne2⟩ := hg 2
  have hP1 : (focusFilter (bs.map (·.1)) (env.update 0)).length = 4 := by
    rw [focusFilter_length, List.length_map, hlen]
  have hF : (topHalfKeys (focusFilter (bs.map (·.1)) (env.update 0))).length = 2 := by
    rw [topHalfKeys_length, hP1]
    decide
  have hP3 : (focusFilter (topHalfKeys (focusFilter (bs.map (·.1)) (env.update 0)))
      (env.update 2)).length = 2 := by
    rw [focusFilter_length]
    exact hF
  have e0 := engineLoop_succ_of_step cfgC1 env 3 _ _
    (c1_step_t0 env bs (bs.map (·.1)) [] g0 hlen (hq 0) hg0 hne0)
  have e1 := engineLoop_succ_of_step cfgC1 env 2 _ _
    (c1_step_t1 env (focusFilter (bs.map (·.1)) (env.update 0)) (bs.map (·.1)) [] g1 hP1
      (hq 1) hg1 hne1)
  have e2 := engineLoop_succ_of_step cfgC1 env 1 _ _
    (c1_step_t2 env (focusFilter (topHalfKeys (focusFilter (bs.map (·.1)) (env.update 0)))
        (env.update 1))
      (topHalfKeys (focusFilter (bs.map (·.1)) (env.update 0)))
      ([] ++ [⟨1, (focusFilter (bs.map (·.1)) (env.update 0)).length,
        max 1 ((focusFilter (bs.map (·.1)) (env.update 0)).length / 2),
        topHalfKeys (focusFilter (bs.map (·.1)) (env.update 0))⟩]) g2
      (by rw [focusFilter_length]; exact hF) (hq 2) hg2 hne2)
  have e3 := engineLoop_succ_of_done cfgC1 env 0 _ _
    (c1_step_t3 env (focusFilter (topHalfKeys (focusFilter (bs.map (·.1)) (env.update 0)))
        (env.update 2))
      (topHalfKeys (focusFilter (bs.map (·.1)) (env.update 0)))
      ([] ++ [⟨1, (focusFilter (bs.map (·.1)) (env.update 0)).length,
        max 1 ((focusFilter (bs.map (·.1)) (env.update 0)).length / 2),
        topHalfKeys (focusFilter (bs.map (·.1)) (env.update 0))⟩]))
  have hrun : run_information_gain_network cfgC1 env bs
      = .ok ⟨focusFilter (topHalfKeys (focusFilter (bs.map (·.1)) (env.update 0)))
               (env.update 2), 3, true, 1,
             topHalfKeys (focusFilter (bs.map (·.1)) (env.update 0)),
             [] ++ [⟨1, (focusFilter (bs.map (·.1)) (env.update 0)).length,
               max 1 ((focusFilter (bs.map (·.1)) (env.update 0)).length / 2),
               topHalfKeys (focusFilter (bs.map (·.1)) (env.update 0))⟩],
             (false
               || decide ((focusFilter (topHalfKeys (focusFilter (bs.map (·.1))
                    (env.update 0))) (env.update 2)).length = 1)
               || decide (cfgC1.confidence_threshold
                    ≤ (maxBySnd (focusFilter (topHalfKeys (focusFilter (bs.map (·.1))
                         (env.update 0))) (env.update 2))).2))⟩ := by
    unfold run_information_gain_network
    dsimp only
    have hfuel : cfgC1.max_questions + 1 = 3 + 1 := rfl
    rw [hfuel, e0, e1, e2, e3]
  refine ⟨_, hrun, ?_, rfl, hP3, rfl, ?_⟩
  · dsimp only
    rw [hP1]
    have h2 : (1 : ℕ) ⊔ 4 / 2 = 2 := by decide
    rw [h2]
    simp
  · dsimp only
    have hd1 : decide ((focusFilter (topHalfKeys (focusFilter (bs.map (·.1))
        (env.update 0))) (env.update 2)).length = 1) = false :=
      decide_eq_false (by omega)
    rw [hd1]
    simp

/-- C1 counterexample: a concrete interview with `maxTurns=3`,
`turnsBeforeNarrowing=1` and 4 initial candidate diagnoses (the benign
environment: questions always available, evaluations always succeed).  The
claim predicts narrowing to 2 after turn 1, then to 1 after turn 2, with
early `confident=true` termination; the run instead records exactly one
narrowing event (turn 1, 4 diseases to 2), asks all 3 questions, ends with 2
tracked diagnoses, and reports `confident = false`. -/
theorem c1_schedule_counterexample :
    (run_information_gain_network cfgC1 envBenign bs4).toOption.map (fun st =>
      (st.narrowing_events.map (fun e => (e.turn, e.diseases_before, e.diseases_after)),
        st.questions_asked, st.current_probs.length, st.narrow_count,
        st.confident_diagnosis))
      = some ([(1, 4, 2)], 3, 2, 1, false) := by
  decide

/-- Witness for C1 (amended) at the concrete benign environment. -/
theorem c1_schedule_amended_witness :
    ∃ st, run_information_gain_network cfgC1 envBenign bs4 = .ok st ∧
      st.narrowing_events.map (fun e => (e.turn, e.diseases_before, e.diseases_after))
        = [(1, 4, 2)] ∧
      st.questions_asked = 3 ∧ st.current_probs.length = 2 ∧ st.narrow_count = 1 ∧
      (st.confident_diagnosis = true ↔
        cfgC1.confidence_threshold ≤ (maxBySnd st.current_probs).2) :=
  c1_schedule_amended envBenign bs4 (by decide) (fun _ => rfl)
    (fun _ => ⟨[("q".data, 0)], rfl, by decide⟩)

end DiagBench
